import Mathlib

/-!
# Verification of the Benford's-Law game (app.py)

Shallow embedding of the scoring pipeline and the leaderboard state machine
of `app.py`, together with proofs of the specification's claims.

Modelling conventions:
* Text is modelled as `List Char`; Python's `re.findall(r"\d+", text)` is the
  list of maximal runs of ASCII decimal digits (`Char.isDigit`).  Python's
  `\d` also matches non-ASCII Unicode decimal digits; the inputs of interest
  here are ASCII.
* Exact arithmetic: the histogram counts are natural numbers, the Benford
  proportions and the persisted scores are rationals (every score the program
  stores is a one-decimal value `round(x, 1)`), and the logistic curve is a
  real-valued function.  Python floats are modelled by exact reals/rationals.
* `round(x, 1)` is modelled as `(round (10 * x) : ℚ) / 10`.  Python rounds
  halves to even while Mathlib's `round` rounds halves up; the two agree at
  every non-tie, and the logistic values arising here are never exact ties.
-/

namespace BenfordApp

/-- `BENFORD = [0.301, 0.176, 0.125, 0.097, 0.079, 0.067, 0.058, 0.051, 0.046]`
(app.py line 16), as exact rationals. -/
def BENFORD : List ℚ :=
  [0.301, 0.176, 0.125, 0.097, 0.079, 0.067, 0.058, 0.051, 0.046]

/-- The chi-square accumulation loop of `chi_square_score` (app.py lines 24-29):
`for i in range(9): O = counts[i]; E = benford[i] * total;
if E > 0: chi_sq += (O - E) ** 2 / E`. -/
def chiSq (counts : List ℕ) (benford : List ℚ) (total : ℕ) : ℚ :=
  (List.range 9).foldl
    (fun chi_sq i =>
      let O : ℚ := counts.getD i 0
      let E : ℚ := benford.getD i 0 * total
      if 0 < E then chi_sq + (O - E) ^ 2 / E else chi_sq)
    0

/-- The logistic curve of `chi_square_score` (app.py lines 32-34):
`k = 0.10; mid = 20; score = 100 / (1 + math.exp(k * (chi_sq - mid)))`. -/
noncomputable def scoreCurve (chi_sq : ℚ) : ℝ :=
  100 / (1 + Real.exp (0.10 * ((chi_sq : ℝ) - 20)))

/-- `chi_square_score(counts, benford, total)` (app.py lines 22-35): chi-square
statistic fed through the logistic curve, then `round(score, 1)`. -/
noncomputable def chi_square_score (counts : List ℕ) (benford : List ℚ) (total : ℕ) : ℚ :=
  (round (10 * scoreCurve (chiSq counts benford total)) : ℚ) / 10

theorem scoreCurve_pos (c : ℚ) : 0 < scoreCurve c := by
  unfold scoreCurve
  positivity

theorem scoreCurve_lt_100 (c : ℚ) : scoreCurve c < 100 := by
  unfold scoreCurve
  have h := Real.exp_pos (0.10 * ((c : ℝ) - 20))
  rw [div_lt_iff₀ (by linarith)]
  nlinarith

theorem scoreCurve_anti {c₁ c₂ : ℚ} (h : c₂ ≤ c₁) : scoreCurve c₁ ≤ scoreCurve c₂ := by
  unfold scoreCurve
  have hc : (c₂ : ℝ) ≤ (c₁ : ℝ) := by exact_mod_cast h
  have hexp : Real.exp (0.10 * ((c₂ : ℝ) - 20)) ≤ Real.exp (0.10 * ((c₁ : ℝ) - 20)) :=
    Real.exp_le_exp.mpr (by linarith)
  have h₂ : 0 < 1 + Real.exp (0.10 * ((c₂ : ℝ) - 20)) := by positivity
  gcongr

theorem round_monotone {x y : ℝ} (h : x ≤ y) : round x ≤ round y := by
  rw [round_eq, round_eq]
  exact Int.floor_le_floor (by linarith)

theorem round_ten_scoreCurve_nonneg (c : ℚ) : (0 : ℤ) ≤ round (10 * scoreCurve c) := by
  have hs := scoreCurve_pos c
  have hlt := sub_half_lt_round (10 * scoreCurve c)
  by_contra hcon
  push_neg at hcon
  have h1 : round (10 * scoreCurve c) ≤ -1 := by omega
  have h2 : ((round (10 * scoreCurve c) : ℤ) : ℝ) ≤ -1 := by exact_mod_cast h1
  nlinarith

theorem round_ten_scoreCurve_le (c : ℚ) : round (10 * scoreCurve c) ≤ 1000 := by
  have hs := scoreCurve_lt_100 c
  have hle := round_le_add_half (10 * scoreCurve c)
  have : ((round (10 * scoreCurve c) : ℤ) : ℝ) < 1001 := by nlinarith
  exact_mod_cast Int.lt_add_one_iff.mp (by exact_mod_cast this)

/-- Claim C3: for every histogram with `total > 0`, the computed score, after
rounding to one decimal place, lies in the interval `[0.0, 100.0]`. -/
theorem claim_C3 (counts : List ℕ) (total : ℕ) (h : 0 < total) :
    0 ≤ chi_square_score counts BENFORD total ∧
      chi_square_score counts BENFORD total ≤ 100 := by
  unfold chi_square_score
  constructor
  · have := round_ten_scoreCurve_nonneg (chiSq counts BENFORD total)
    positivity
  · have h1000 := round_ten_scoreCurve_le (chiSq counts BENFORD total)
    rw [div_le_iff₀ (by norm_num)]
    exact_mod_cast h1000

/-- Witness for C3 at the concrete histogram `[1,0,0,0,0,0,0,0,0]`, `total = 1`. -/
theorem claim_C3_witness :
    (0 : ℕ) < 1 ∧
      (0 ≤ chi_square_score [1, 0, 0, 0, 0, 0, 0, 0, 0] BENFORD 1 ∧
        chi_square_score [1, 0, 0, 0, 0, 0, 0, 0, 0] BENFORD 1 ≤ 100) :=
  ⟨by decide, claim_C3 [1, 0, 0, 0, 0, 0, 0, 0, 0] 1 (by decide)⟩

theorem exp_neg_two_bounds :
    (0.1352 : ℝ) < Real.exp (-2) ∧ Real.exp (-2) < 0.1354 := by
  have e1 := Real.exp_one_gt_d9
  have e2 := Real.exp_one_lt_d9
  have h2 : Real.exp 2 = Real.exp 1 * Real.exp 1 := by
    rw [← Real.exp_add]; norm_num
  have hpos : (0 : ℝ) < Real.exp 2 := Real.exp_pos 2
  have hneg : Real.exp (-2) = (Real.exp 2)⁻¹ := Real.exp_neg 2
  have hlo : (7.387 : ℝ) < Real.exp 2 := by rw [h2]; nlinarith
  have hhi : Real.exp 2 < 7.393 := by rw [h2]; nlinarith
  constructor
  · rw [hneg]
    have : (7.393 : ℝ)⁻¹ < (Real.exp 2)⁻¹ := by
      apply inv_lt_inv_of_lt hpos hhi
    linarith [this, show (0.1352 : ℝ) < 7.393⁻¹ by norm_num]
  · rw [hneg]
    have : (Real.exp 2)⁻¹ < (7.387 : ℝ)⁻¹ := by
      apply inv_lt_inv_of_lt (by norm_num) hlo
    linarith [this, show (7.387 : ℝ)⁻¹ < 0.1354 by norm_num]

/-- Claim C5: whenever the chi-square statistic is `0` (observed counts exactly
match the Benford expected proportions), the score is
`round(100 / (1 + exp(-2.0)), 1) = 88.1`. -/
theorem claim_C5 (counts : List ℕ) (total : ℕ)
    (h : chiSq counts BENFORD total = 0) :
    chi_square_score counts BENFORD total = 88.1 := by
  unfold chi_square_score
  rw [h]
  have harg : (0.10 : ℝ) * (((0 : ℚ) : ℝ) - 20) = -2 := by norm_num
  have hcurve : scoreCurve 0 = 100 / (1 + Real.exp (-2)) := by
    unfold scoreCurve
    rw [harg]
  obtain ⟨hE1, hE2⟩ := exp_neg_two_bounds
  have hEpos : (0 : ℝ) < 1 + Real.exp (-2) := by positivity
  have hv1 : (880.5 : ℝ) ≤ 10 * scoreCurve 0 := by
    rw [hcurve]
    rw [show (10 : ℝ) * (100 / (1 + Real.exp (-2))) = 1000 / (1 + Real.exp (-2)) by ring]
    rw [le_div_iff₀ hEpos]
    nlinarith
  have hv2 : 10 * scoreCurve 0 < 881.5 := by
    rw [hcurve]
    rw [show (10 : ℝ) * (100 / (1 + Real.exp (-2))) = 1000 / (1 + Real.exp (-2)) by ring]
    rw [div_lt_iff₀ hEpos]
    nlinarith
  have hround : round (10 * scoreCurve 0) = 881 := by
    rw [round_eq]
    rw [Int.floor_eq_iff]
    constructor
    · push_cast
      linarith
    · push_cast
      linarith
  rw [hround]
  norm_num

/-- Witness for C5 at the histogram exactly proportional to Benford:
`counts = [301,176,125,97,79,67,58,51,46]`, `total = 1000`. -/
theorem claim_C5_witness :
    chiSq [301, 176, 125, 97, 79, 67, 58, 51, 46] BENFORD 1000 = 0 ∧
      chi_square_score [301, 176, 125, 97, 79, 67, 58, 51, 46] BENFORD 1000 = 88.1 :=
  ⟨by
    simp only [chiSq, BENFORD, List.range_succ, List.range_zero, List.foldl_append,
      List.foldl_cons, List.foldl_nil, List.getD_cons_zero, List.getD_cons_succ]
    norm_num,
   claim_C5 _ _ (by
    simp only [chiSq, BENFORD, List.range_succ, List.range_zero, List.foldl_append,
      List.foldl_cons, List.foldl_nil, List.getD_cons_zero, List.getD_cons_succ]
    norm_num)⟩

/-- Claim C6: for two histograms over the same total, a larger (or equal)
chi-square statistic never yields a larger score, including after rounding. -/
theorem claim_C6 (counts₁ counts₂ : List ℕ) (total : ℕ)
    (h : chiSq counts₂ BENFORD total ≤ chiSq counts₁ BENFORD total) :
    chi_square_score counts₁ BENFORD total ≤ chi_square_score counts₂ BENFORD total := by
  unfold chi_square_score
  have hcurve := scoreCurve_anti h
  have hr : round (10 * scoreCurve (chiSq counts₁ BENFORD total)) ≤
      round (10 * scoreCurve (chiSq counts₂ BENFORD total)) :=
    round_monotone (by linarith)
  have : ((round (10 * scoreCurve (chiSq counts₁ BENFORD total)) : ℤ) : ℚ) ≤
      ((round (10 * scoreCurve (chiSq counts₂ BENFORD total)) : ℤ) : ℚ) := by
    exact_mod_cast hr
  linarith

/-- Witness for C6 at a concrete pair of histograms with the same total. -/
theorem claim_C6_witness :
    chiSq [1, 0, 0, 0, 0, 0, 0, 0, 0] BENFORD 1 ≤ chiSq [0, 1, 0, 0, 0, 0, 0, 0, 0] BENFORD 1 ∧
      chi_square_score [0, 1, 0, 0, 0, 0, 0, 0, 0] BENFORD 1 ≤
        chi_square_score [1, 0, 0, 0, 0, 0, 0, 0, 0] BENFORD 1 :=
  ⟨by
    simp only [chiSq, BENFORD, List.range_succ, List.range_zero, List.foldl_append,
      List.foldl_cons, List.foldl_nil, List.getD_cons_zero, List.getD_cons_succ]
    norm_num,
   claim_C6 _ _ _ (by
    simp only [chiSq, BENFORD, List.range_succ, List.range_zero, List.foldl_append,
      List.foldl_cons, List.foldl_nil, List.getD_cons_zero, List.getD_cons_succ]
    norm_num)⟩

/-- Helper for `digitRuns`: scans the text, `acc` holding the digit run
currently being read, in reverse. -/
def digitRunsAux : List Char → List Char → List (List Char)
  | [], acc => if acc.isEmpty then [] else [acc.reverse]
  | c :: cs, acc =>
    if c.isDigit then digitRunsAux cs (c :: acc)
    else if acc.isEmpty then digitRunsAux cs []
    else acc.reverse :: digitRunsAux cs []

/-- `numbers = re.findall(r"\d+", data_input)` (app.py line 88): the maximal
runs of decimal-digit characters of the text, in order. -/
def digitRuns (cs : List Char) : List (List Char) :=
  digitRunsAux cs []

/-- One iteration of the first-digit loop (app.py lines 95-99):
`if n[0] != "0": d = int(n[0]); if 1 <= d <= 9: counts[d-1] += 1`.
The tokens produced by the regex are nonempty, so `n[0]` never faults;
the `[]` case is unreachable and returns `counts` unchanged. -/
def bumpCount (counts : List ℕ) (n : List Char) : List ℕ :=
  match n with
  | [] => counts
  | c :: _ =>
    if c ≠ '0' then
      let d := c.toNat - '0'.toNat
      if 1 ≤ d ∧ d ≤ 9 then counts.set (d - 1) (counts.getD (d - 1) 0 + 1)
      else counts
    else counts

/-- The first-digit histogram loop (app.py lines 94-99):
`counts = [0]*9; for n in numbers: ...`. -/
def buildCounts (numbers : List (List Char)) : List ℕ :=
  numbers.foldl bumpCount (List.replicate 9 0)

/-- Histogram of a raw text: tokens, then counts. -/
def countsOf (text : List Char) : List ℕ :=
  buildCounts (digitRuns text)

/-- `total = sum(counts)` (app.py line 101). -/
def totalOf (text : List Char) : ℕ :=
  (countsOf text).sum

/-- The ASCII character of a decimal digit, used to state claim C8. -/
def digitChar : ℕ → Char
  | 1 => '1'
  | 2 => '2'
  | 3 => '3'
  | 4 => '4'
  | 5 => '5'
  | 6 => '6'
  | 7 => '7'
  | 8 => '8'
  | 9 => '9'
  | _ => '0'

theorem char_toNat_inj {a b : Char} (h : a.toNat = b.toNat) : a = b := by
  rw [← Char.ofNat_toNat a, ← Char.ofNat_toNat b, h]

theorem isDigit_toNat_bounds {c : Char} (h : c.isDigit = true) :
    48 ≤ c.toNat ∧ c.toNat ≤ 57 := by
  have hd : '0' ≤ c ∧ c ≤ '9' := by
    simpa [Char.isDigit, decide_eq_true_eq] using h
  constructor
  · have := hd.1
    simp [Char.le_def] at this
    exact this
  · have := hd.2
    simp [Char.le_def] at this
    exact this

theorem digitChar_toNat {i : ℕ} (hi : i < 9) : (digitChar (i + 1)).toNat = 49 + i := by
  interval_cases i <;> decide

theorem eq_digitChar_iff {c : Char} {k i : ℕ} (hc : c.toNat = 48 + k)
    (hk : 1 ≤ k ∧ k ≤ 9) (hi : i < 9) : c = digitChar (i + 1) ↔ k = i + 1 := by
  constructor
  · intro h
    have ht := digitChar_toNat hi
    rw [h] at hc
    omega
  · intro h
    apply char_toNat_inj
    rw [hc, h, digitChar_toNat hi]
    omega

theorem getD_set (l : List ℕ) (j v i : ℕ) (hj : j < l.length) :
    (l.set j v).getD i 0 = if i = j then v else l.getD i 0 := by
  induction l generalizing i j with
  | nil => simp at hj
  | cons x xs ih =>
    cases j with
    | zero =>
      cases i with
      | zero => simp
      | succ i => simp
    | succ j =>
      cases i with
      | zero => simp
      | succ i =>
        simp only [List.set_cons_succ, List.getD_cons_succ]
        rw [ih j i (by simpa using hj)]
        simp [Nat.succ_inj]

theorem bumpCount_getD (counts : List ℕ) (h9 : counts.length = 9)
    (c : Char) (rest : List Char) (hc : c.isDigit = true) (i : ℕ) (hi : i < 9) :
    (bumpCount counts (c :: rest)).getD i 0 =
      counts.getD i 0 +
        (if (c :: rest).head? = some (digitChar (i + 1)) then 1 else 0) := by
  obtain ⟨h48, h57⟩ := isDigit_toNat_bounds hc
  set k : ℕ := c.toNat - 48 with hk
  have hck : c.toNat = 48 + k := by omega
  have hk9 : k ≤ 9 := by omega
  by_cases h0 : k = 0
  · have hc0 : c = '0' := by
      apply char_toNat_inj
      rw [hck, h0]
      decide
    subst hc0
    have hne : ('0' : Char) ≠ digitChar (i + 1) := by
      intro h
      have ht := digitChar_toNat hi
      rw [← h] at ht
      have h0' : ('0' : Char).toNat = 48 := by decide
      omega
    simp [bumpCount, List.head?, hne]
  · have hk1 : 1 ≤ k := by omega
    have hne0 : c ≠ '0' := by
      intro h
      apply h0
      have h0' : c.toNat = 48 := by rw [h]; decide
      omega
    have hstep : bumpCount counts (c :: rest) =
        counts.set (k - 1) (counts.getD (k - 1) 0 + 1) := by
      have hd : c.toNat - '0'.toNat = k := by
        have h0' : ('0' : Char).toNat = 48 := by decide
        omega
      simp only [bumpCount]
      rw [if_pos hne0, hd, if_pos ⟨hk1, hk9⟩]
    rw [hstep, getD_set counts (k - 1) _ i (by omega)]
    have hhead : ((c :: rest).head? = some (digitChar (i + 1))) ↔ k = i + 1 := by
      simp only [List.head?, Option.some_inj]
      exact eq_digitChar_iff hck ⟨hk1, hk9⟩ hi
    by_cases hik : k = i + 1
    · have hki : k - 1 = i := by omega
      rw [if_pos (by omega), if_pos (hhead.mpr hik), hki]
    · rw [if_neg (by omega), if_neg (fun h => hik (hhead.mp h))]
      omega

theorem bumpCount_length (counts : List ℕ) (n : List Char) :
    (bumpCount counts n).length = counts.length := by
  unfold bumpCount
  match n with
  | [] => rfl
  | c :: rest =>
    by_cases h : c ≠ '0' <;> simp [h] <;> split <;> simp

theorem buildCounts_foldl_getD (runs : List (List Char)) (counts : List ℕ)
    (h9 : counts.length = 9)
    (hruns : ∀ r ∈ runs, ∃ c rest, r = c :: rest ∧ c.isDigit = true)
    (i : ℕ) (hi : i < 9) :
    (runs.foldl bumpCount counts).getD i 0 =
      counts.getD i 0 +
        (runs.filter (fun n => n.head? = some (digitChar (i + 1)))).length := by
  induction runs generalizing counts with
  | nil => simp
  | cons r rs ih =>
    obtain ⟨c, rest, hr, hc⟩ := hruns r (by simp)
    subst hr
    rw [List.foldl_cons,
      ih (bumpCount counts (c :: rest))
        (by rw [bumpCount_length, h9])
        (fun r hr => hruns r (by simp [hr])),
      bumpCount_getD counts h9 c rest hc i hi]
    rw [List.filter_cons]
    by_cases hp : (c :: rest).head? = some (digitChar (i + 1))
    · have hc' : c = digitChar (i + 1) := by simpa using hp
      simp [hp, hc']
      omega
    · have hc' : ¬(c = digitChar (i + 1)) := by simpa using hp
      simp [hp, hc']

theorem digitRunsAux_wf (cs : List Char) :
    ∀ acc, (∀ c ∈ acc, c.isDigit = true) →
      ∀ r ∈ digitRunsAux cs acc, ∃ c rest, r = c :: rest ∧ c.isDigit = true := by
  induction cs with
  | nil =>
    intro acc hacc r hr
    by_cases hemp : acc.isEmpty
    · simp only [digitRunsAux, if_pos hemp] at hr
      simp at hr
    · simp only [digitRunsAux, if_neg hemp] at hr
      have hr' : r = acc.reverse := by simpa using hr
      subst hr'
      have hne : acc ≠ [] := fun h => hemp (by simp [h])
      have hne' : acc.reverse ≠ [] := by simpa using hne
      obtain ⟨c, rest, hcr⟩ := List.exists_cons_of_ne_nil hne'
      refine ⟨c, rest, hcr, hacc c ?_⟩
      have hmem : c ∈ acc.reverse := by rw [hcr]; simp
      simpa using hmem
  | cons x xs ih =>
    intro acc hacc r hr
    simp only [digitRunsAux] at hr
    by_cases hx : x.isDigit
    · rw [if_pos hx] at hr
      exact ih (x :: acc) (by
        intro c hc
        rcases List.mem_cons.mp hc with h | h
        · subst h; exact hx
        · exact hacc c h) r hr
    · rw [if_neg hx] at hr
      by_cases hemp : acc.isEmpty
      · rw [if_pos hemp] at hr
        exact ih [] (by simp) r hr
      · rw [if_neg hemp] at hr
        rcases List.mem_cons.mp hr with h | h
        · subst h
          have hne : acc ≠ [] := fun h => hemp (by simp [h])
          have hne' : acc.reverse ≠ [] := by simpa using hne
          obtain ⟨c, rest, hcr⟩ := List.exists_cons_of_ne_nil hne'
          refine ⟨c, rest, hcr, hacc c ?_⟩
          have hmem : c ∈ acc.reverse := by rw [hcr]; simp
          simpa using hmem
        · exact ih [] (by simp) r h

theorem digitRuns_wf (text : List Char) :
    ∀ r ∈ digitRuns text, ∃ c rest, r = c :: rest ∧ c.isDigit = true :=
  digitRunsAux_wf text [] (by simp)

/-- Claim C8: the histogram increments bucket `d - 1` for each digit-run whose
first character is the digit `d ∈ 1..9` and discards runs beginning with "0"
(bucket `i` holds the number of runs headed by digit `i + 1`); in particular
`"123 045 999 100 256 777"` yields counts `[2,1,0,0,0,0,1,0,1]` and `total = 5`. -/
theorem claim_C8 :
    (∀ (text : List Char) (i : ℕ), i < 9 →
        (countsOf text).getD i 0 =
          ((digitRuns text).filter
            (fun n => n.head? = some (digitChar (i + 1)))).length) ∧
      countsOf (String.data "123 045 999 100 256 777") = [2, 1, 0, 0, 0, 0, 1, 0, 1] ∧
      totalOf (String.data "123 045 999 100 256 777") = 5 := by
  refine ⟨?_, by decide, by decide⟩
  intro text i hi
  unfold countsOf buildCounts
  rw [buildCounts_foldl_getD (digitRuns text) (List.replicate 9 0) (by simp)
    (digitRuns_wf text) i hi]
  have hrep : (List.replicate 9 (0 : ℕ)).getD i 0 = 0 := by
    interval_cases i <;> rfl
  rw [hrep]
  simp

/-- Witness for C8's quantified part at the example text and bucket `0`. -/
theorem claim_C8_witness :
    (0 : ℕ) < 9 ∧
      (countsOf (String.data "123 045 999 100 256 777")).getD 0 0 =
        ((digitRuns (String.data "123 045 999 100 256 777")).filter
          (fun n => n.head? = some (digitChar 1))).length :=
  ⟨by decide, claim_C8.1 (String.data "123 045 999 100 256 777") 0 (by decide)⟩

/-- A leaderboard record `{"name": ..., "score": ..., "timestamp": ...}`
(app.py lines 46, 134-138).  Strings are lists of characters; the score is the
one-decimal value produced by `chi_square_score`, modelled as a rational. -/
structure Entry where
  name : List Char
  score : ℚ
  timestamp : List Char
deriving DecidableEq

/-- The comparison underlying `sorted(board, key=lambda x: x["score"],
reverse=True)`: `a` may come before `b` when `a`'s score is at least `b`'s. -/
def scoreGE (a b : Entry) : Prop :=
  b.score ≤ a.score

instance : DecidableRel scoreGE :=
  fun a b => inferInstanceAs (Decidable (b.score ≤ a.score))

instance : IsTotal Entry scoreGE :=
  ⟨fun a b => le_total b.score a.score⟩

instance : IsTrans Entry scoreGE :=
  ⟨fun _ _ _ hab hbc => le_trans hbc hab⟩

/-- `sorted(board, key=lambda x: x["score"], reverse=True)` (app.py line 140):
the stable sort of the board by score descending.  Python's `sorted` is the
stable descending sort; `List.insertionSort` with `scoreGE` computes the same
list (sortedness, permutation and stability are proved below, and a stable
descending sort of a list is unique). -/
def sortDesc (l : List Entry) : List Entry :=
  List.insertionSort scoreGE l

/-- `index = next(i for i, e in enumerate(board) if e["name"] == selected_name)`
(app.py line 164): index of the first entry with the selected name. -/
def findEntryIdx (board : List Entry) (sel : List Char) : ℕ :=
  board.findIdx (fun e => e.name = sel)

/-- "Update Name" (app.py lines 169-171):
`board[index]["name"] = new_name` at the looked-up index.  When no name
matches, the source's `next(...)` raises `StopIteration` before any mutation;
the state is then unchanged, modelled by the `none` branch. -/
def updateBoard (board : List Entry) (sel new : List Char) : List Entry :=
  match board[findEntryIdx board sel]? with
  | some e => board.set (findEntryIdx board sel) ⟨new, e.score, e.timestamp⟩
  | none => board

/-- "Delete Entry" (app.py lines 176-177): `board.pop(index)` at the looked-up
index (`List.eraseIdx` past the end is the identity, matching the unreachable
no-match case). -/
def deleteBoard (board : List Entry) (sel : List Char) : List Entry :=
  board.eraseIdx (findEntryIdx board sel)

/-- Submit's leaderboard mutation (app.py lines 134-140): append the new
record, then re-sort by score descending. -/
def appendBoard (board : List Entry) (e : Entry) : List Entry :=
  sortDesc (board ++ [e])

/-- The three mutations the UI can perform on the leaderboard. -/
inductive BoardOp where
  | append (e : Entry)
  | update (sel new : List Char)
  | delete (sel : List Char)

def applyOp (b : List Entry) : BoardOp → List Entry
  | .append e => appendBoard b e
  | .update sel new => updateBoard b sel new
  | .delete sel => deleteBoard b sel

def applyOps (b : List Entry) (ops : List BoardOp) : List Entry :=
  ops.foldl applyOp b

theorem sortDesc_sorted (l : List Entry) : List.Sorted scoreGE (sortDesc l) :=
  List.sorted_insertionSort scoreGE l

theorem sortDesc_perm (l : List Entry) : List.Perm (sortDesc l) l :=
  List.perm_insertionSort scoreGE l

theorem filter_orderedInsert (q : ℚ) (a : Entry) (l : List Entry) :
    (List.orderedInsert scoreGE a l).filter (fun e => e.score = q) =
      if a.score = q then a :: l.filter (fun e => e.score = q)
      else l.filter (fun e => e.score = q) := by
  induction l with
  | nil =>
    by_cases haq : a.score = q <;> simp [List.orderedInsert, haq]
  | cons b l ih =>
    by_cases hr : scoreGE a b
    · rw [List.orderedInsert, if_pos hr]
      by_cases haq : a.score = q <;> simp [List.filter_cons, haq]
    · rw [List.orderedInsert, if_neg hr]
      have hlt : a.score < b.score := lt_of_not_le hr
      by_cases haq : a.score = q
      · have hbq : ¬(b.score = q) := fun h => absurd (haq ▸ h ▸ hlt) (lt_irrefl _)
        simp [List.filter_cons, ih, haq, hbq]
      · by_cases hbq : b.score = q <;> simp [List.filter_cons, ih, haq, hbq]

/-- Stability of the re-sort: for every score value, the subsequence of entries
having exactly that score is unchanged — ties keep their original order. -/
theorem sortDesc_stable (q : ℚ) (l : List Entry) :
    (sortDesc l).filter (fun e => e.score = q) = l.filter (fun e => e.score = q) := by
  induction l with
  | nil => rfl
  | cons a l ih =>
    unfold sortDesc at ih ⊢
    rw [List.insertionSort, filter_orderedInsert, ih]
    by_cases haq : a.score = q <;> simp [List.filter_cons, haq]

theorem set_getElem?_self {α : Type} (l : List α) (i : ℕ) (a : α)
    (h : l[i]? = some a) : l.set i a = l := by
  induction l generalizing i with
  | nil => simp at h
  | cons x xs ih =>
    cases i with
    | zero =>
      simp only [List.getElem?_cons_zero, Option.some_inj] at h
      rw [← h]
      rfl
    | succ i =>
      simp only [List.getElem?_cons_succ] at h
      simp [ih i h]

theorem sorted_score_iff (l : List Entry) :
    List.Sorted scoreGE l ↔
      (l.map (fun e => e.score)).Pairwise (fun x y => y ≤ x) := by
  rw [List.Sorted, List.pairwise_map]
  exact Iff.rfl

theorem updateBoard_map_score (b : List Entry) (sel new : List Char) :
    (updateBoard b sel new).map (fun e => e.score) = b.map (fun e => e.score) := by
  unfold updateBoard
  cases hm : b[findEntryIdx b sel]? with
  | none => rfl
  | some e =>
    simp only [List.map_set]
    apply set_getElem?_self
    simp [hm]

theorem applyOp_sorted {b : List Entry} (hb : List.Sorted scoreGE b) (op : BoardOp) :
    List.Sorted scoreGE (applyOp b op) := by
  cases op with
  | append e => exact sortDesc_sorted (b ++ [e])
  | update sel new =>
    show List.Sorted scoreGE (updateBoard b sel new)
    rw [sorted_score_iff, updateBoard_map_score]
    exact (sorted_score_iff b).mp hb
  | delete sel =>
    exact List.Pairwise.sublist (List.eraseIdx_sublist b (findEntryIdx b sel)) hb

/-- Claim C2: starting from any board sorted by score descending (the empty
board, or any board the program itself persisted), every sequence of
append/update/delete operations leaves the in-memory sequence sorted by score
descending; moreover the re-sort used by append is stable (for every score
value the subsequence of entries with that score is preserved) and is a
permutation of its input. -/
theorem claim_C2 (ops : List BoardOp) (b : List Entry)
    (hb : List.Sorted scoreGE b) :
    List.Sorted scoreGE (applyOps b ops) ∧
      (∀ (l : List Entry) (q : ℚ),
        (sortDesc l).filter (fun e => e.score = q) =
          l.filter (fun e => e.score = q)) ∧
      ∀ l : List Entry, List.Perm (sortDesc l) l := by
  refine ⟨?_, fun l q => sortDesc_stable q l, sortDesc_perm⟩
  induction ops generalizing b with
  | nil => exact hb
  | cons op ops ih => exact ih (applyOp b op) (applyOp_sorted hb op)

/-- Witness for C2: one append applied to the empty board. -/
theorem claim_C2_witness :
    List.Sorted scoreGE [] ∧
      (List.Sorted scoreGE
          (applyOps [] [BoardOp.append ⟨String.data "alice", 88.1, String.data "t"⟩]) ∧
        (∀ (l : List Entry) (q : ℚ),
          (sortDesc l).filter (fun e => e.score = q) =
            l.filter (fun e => e.score = q)) ∧
        ∀ l : List Entry, List.Perm (sortDesc l) l) :=
  ⟨List.sorted_nil,
    claim_C2 [BoardOp.append ⟨String.data "alice", 88.1, String.data "t"⟩] [] List.sorted_nil⟩

/-- Claim C9: when at least one entry carries the selected name, the admin
update and delete operations act on the first entry (in current display order)
whose name matches: the first match is at an index `i` before which no entry
matches; update rewrites exactly position `i` (all other positions are
untouched), and delete removes exactly position `i`. -/
theorem claim_C9 (board : List Entry) (sel new : List Char)
    (h : ∃ e ∈ board, e.name = sel) :
    ∃ i, i < board.length ∧
      (∀ e, board[i]? = some e →
        e.name = sel ∧
          updateBoard board sel new = board.set i ⟨new, e.score, e.timestamp⟩) ∧
      (∀ j, j < i → ∀ e, board[j]? = some e → e.name ≠ sel) ∧
      (∀ j, j ≠ i → (updateBoard board sel new)[j]? = board[j]?) ∧
      deleteBoard board sel = board.eraseIdx i := by
  have hex : ∃ x ∈ board, (fun e : Entry => decide (e.name = sel)) x = true := by
    obtain ⟨e, he, hn⟩ := h
    exact ⟨e, he, by simp [hn]⟩
  have hlt' : board.findIdx (fun e : Entry => decide (e.name = sel)) < board.length :=
    List.findIdx_lt_length_of_exists hex
  have hlt : findEntryIdx board sel < board.length := hlt'
  refine ⟨findEntryIdx board sel, hlt, ?_, ?_, ?_, rfl⟩
  · intro e he
    have he' : board[board.findIdx (fun e : Entry => decide (e.name = sel))]? = some e := he
    have hp := List.findIdx_of_getElem?_eq_some he'
    have hname : e.name = sel := by simpa using hp
    refine ⟨hname, ?_⟩
    unfold updateBoard
    rw [he]
  · intro j hj e hej hname
    have hj' : j < board.findIdx (fun e : Entry => decide (e.name = sel)) := hj
    have hfalse := List.not_of_lt_findIdx hj'
    have hjlen : j < board.length := lt_trans hj hlt
    have hget : board[j]? = some (board.get ⟨j, hjlen⟩) := by
      rw [List.getElem?_eq_getElem hjlen]
      rw [List.get_eq_getElem]
    rw [hget] at hej
    have heq : board.get ⟨j, hjlen⟩ = e := Option.some_inj.mp hej
    have hfalse2 : decide (e.name = sel) = false := by
      rw [← heq]
      exact hfalse
    simp [hname] at hfalse2
  · intro j hj
    unfold updateBoard
    cases hm : board[findEntryIdx board sel]? with
    | none => rfl
    | some e => exact List.getElem?_set_ne (by omega)

/-! ## The persisted store: Python's `csv` writer and reader

`save_leaderboard` (app.py lines 49-54) writes rows with `csv.writer`, and
`load_leaderboard` (app.py lines 37-47) reads them back with `csv.reader`.
The default dialect is modelled: fields are separated by `','`, rows are
terminated by `"\r\n"`, a field is quoted iff it contains a delimiter, quote
or line-break character (QUOTE_MINIMAL), and a quote character inside a
quoted field is doubled. -/

/-- Does `csv.writer` need to quote this field? (QUOTE_MINIMAL). -/
def needsQuote (f : List Char) : Bool :=
  f.any (fun c => c = ',' ∨ c = '"' ∨ c = '\r' ∨ c = '\n')

/-- Double every quote character (the csv quoting of embedded quotes). -/
def escapeQuotes (f : List Char) : List Char :=
  f.foldr (fun c acc => if c = '"' then '"' :: '"' :: acc else c :: acc) []

/-- A single field as `csv.writer` emits it. -/
def quoteField (f : List Char) : List Char :=
  if needsQuote f then '"' :: escapeQuotes f ++ ['"'] else f

/-- The comma-joined fields of one row. -/
def rowBody : List (List Char) → List Char
  | [] => []
  | [f] => quoteField f
  | f :: fs => quoteField f ++ ',' :: rowBody fs

/-- `writer.writerow(fields)`: quoted fields joined by `','`, terminated by
the csv module's default `"\r\n"`. -/
def writeRow (fs : List (List Char)) : List Char :=
  rowBody fs ++ ['\r', '\n']

/-- The state machine of `csv.reader`: remaining text, inside-quotes flag,
current field, current row, rows read so far.  Inside quotes a doubled quote
is a literal quote and any other character (line breaks included) is literal;
outside quotes `','` ends the field, a line break ends the row, and a quote
at the start of a field opens a quoted field. -/
def csvAux : List Char → Bool → List Char → List (List Char) →
    List (List (List Char)) → List (List (List Char))
  | [], _, f, r, rows => if f.isEmpty ∧ r.isEmpty then rows else rows ++ [r ++ [f]]
  | '"' :: '"' :: cs, true, f, r, rows => csvAux cs true (f ++ ['"']) r rows
  | '"' :: cs, true, f, r, rows => csvAux cs false f r rows
  | c :: cs, true, f, r, rows => csvAux cs true (f ++ [c]) r rows
  | ',' :: cs, false, f, r, rows => csvAux cs false [] (r ++ [f]) rows
  | '\r' :: '\n' :: cs, false, f, r, rows => csvAux cs false [] [] (rows ++ [r ++ [f]])
  | '\r' :: cs, false, f, r, rows => csvAux cs false [] [] (rows ++ [r ++ [f]])
  | '\n' :: cs, false, f, r, rows => csvAux cs false [] [] (rows ++ [r ++ [f]])
  | '"' :: cs, false, f, r, rows =>
    if f.isEmpty then csvAux cs true f r rows else csvAux cs false (f ++ ['"']) r rows
  | c :: cs, false, f, r, rows => csvAux cs false (f ++ [c]) r rows

/-- `csv.reader` over the whole file text. -/
def parseRows (text : List Char) : List (List (List Char)) :=
  csvAux text false [] [] []

theorem csvAux_other_false (c : Char) (cs : List Char) (f : List Char)
    (r : List (List Char)) (rows : List (List (List Char)))
    (h1 : c ≠ ',') (h2 : c ≠ '\r') (h3 : c ≠ '\n') (h4 : c ≠ '"') :
    csvAux (c :: cs) false f r rows = csvAux cs false (f ++ [c]) r rows := by
  conv_lhs => unfold csvAux
  split <;> simp_all

theorem csvAux_other_true (c : Char) (cs : List Char) (f : List Char)
    (r : List (List Char)) (rows : List (List (List Char)))
    (h4 : c ≠ '"') :
    csvAux (c :: cs) true f r rows = csvAux cs true (f ++ [c]) r rows := by
  conv_lhs => unfold csvAux
  split <;> simp_all

theorem csvAux_quote_close (cs : List Char) (f : List Char)
    (r : List (List Char)) (rows : List (List (List Char)))
    (h : cs.head? ≠ some '"') :
    csvAux ('"' :: cs) true f r rows = csvAux cs false f r rows := by
  conv_lhs => unfold csvAux
  split <;> simp_all <;> simp_all [eq_comm]

theorem csvAux_quote_quote (cs : List Char) (f : List Char)
    (r : List (List Char)) (rows : List (List (List Char))) :
    csvAux ('"' :: '"' :: cs) true f r rows = csvAux cs true (f ++ ['"']) r rows := by
  rfl

theorem csvAux_quote_open (cs : List Char)
    (r : List (List Char)) (rows : List (List (List Char))) :
    csvAux ('"' :: cs) false [] r rows = csvAux cs true [] r rows := by
  conv_lhs => unfold csvAux
  split <;> simp_all <;> simp_all [eq_comm]

theorem csvAux_comma (cs : List Char) (f : List Char)
    (r : List (List Char)) (rows : List (List (List Char))) :
    csvAux (',' :: cs) false f r rows = csvAux cs false [] (r ++ [f]) rows := by
  rfl

theorem csvAux_crlf (cs : List Char) (f : List Char)
    (r : List (List Char)) (rows : List (List (List Char))) :
    csvAux ('\r' :: '\n' :: cs) false f r rows =
      csvAux cs false [] [] (rows ++ [r ++ [f]]) := by
  rfl

theorem csvAux_escaped (f : List Char) : ∀ (rest acc : List Char)
    (r : List (List Char)) (rows : List (List (List Char))),
    rest.head? ≠ some '"' →
    csvAux (escapeQuotes f ++ '"' :: rest) true acc r rows =
      csvAux rest false (acc ++ f) r rows := by
  induction f with
  | nil =>
    intro rest acc r rows hrest
    simpa [escapeQuotes] using csvAux_quote_close rest acc r rows hrest
  | cons c f ih =>
    intro rest acc r rows hrest
    by_cases hc : c = '"'
    · subst hc
      have he : escapeQuotes ('"' :: f) = '"' :: '"' :: escapeQuotes f := by
        simp [escapeQuotes]
      rw [he]
      rw [show ('"' :: '"' :: escapeQuotes f) ++ '"' :: rest =
          '"' :: '"' :: (escapeQuotes f ++ '"' :: rest) by simp]
      rw [csvAux_quote_quote _ acc r rows, ih rest (acc ++ ['"']) r rows hrest]
      simp
    · have he : escapeQuotes (c :: f) = c :: escapeQuotes f := by
        simp [escapeQuotes, hc]
      rw [he]
      rw [show (c :: escapeQuotes f) ++ '"' :: rest =
          c :: (escapeQuotes f ++ '"' :: rest) by simp]
      rw [csvAux_other_true c _ acc r rows hc, ih rest (acc ++ [c]) r rows hrest]
      simp

theorem csvAux_plain (f : List Char)
    (hf : ∀ c ∈ f, ¬c = ',' ∧ ¬c = '"' ∧ ¬c = '\r' ∧ ¬c = '\n') :
    ∀ (rest acc : List Char) (r : List (List Char)) (rows : List (List (List Char))),
    csvAux (f ++ rest) false acc r rows = csvAux rest false (acc ++ f) r rows := by
  induction f with
  | nil => intro rest acc r rows; simp
  | cons c f ih =>
    intro rest acc r rows
    obtain ⟨h1, h2, h3, h4⟩ := hf c (by simp)
    rw [List.cons_append, csvAux_other_false c _ acc r rows h1 h3 h4 h2]
    rw [ih (fun x hx => hf x (by simp [hx])) rest (acc ++ [c]) r rows]
    simp

theorem csvAux_field (f : List Char) (rest : List Char)
    (r : List (List Char)) (rows : List (List (List Char)))
    (hrest : rest.head? ≠ some '"') :
    csvAux (quoteField f ++ rest) false [] r rows = csvAux rest false f r rows := by
  unfold quoteField
  by_cases hq : needsQuote f
  · rw [if_pos hq]
    rw [show ('"' :: escapeQuotes f ++ ['"']) ++ rest =
        '"' :: (escapeQuotes f ++ '"' :: rest) by simp]
    rw [csvAux_quote_open _ r rows, csvAux_escaped f rest [] r rows hrest]
    simp
  · rw [if_neg hq]
    have hf : ∀ c ∈ f, ¬c = ',' ∧ ¬c = '"' ∧ ¬c = '\r' ∧ ¬c = '\n' := by
      simpa [needsQuote] using hq
    simpa using csvAux_plain f hf rest [] r rows

theorem csvAux_row (fs : List (List Char)) (hne : fs ≠ []) :
    ∀ (tail : List Char) (r : List (List Char)) (rows : List (List (List Char))),
    csvAux (rowBody fs ++ '\r' :: '\n' :: tail) false [] r rows =
      csvAux tail false [] [] (rows ++ [r ++ fs]) := by
  induction fs with
  | nil => exact absurd rfl hne
  | cons f fs ih =>
    intro tail r rows
    cases fs with
    | nil =>
      rw [show rowBody [f] = quoteField f from rfl]
      rw [csvAux_field f _ r rows (by simp)]
      rw [csvAux_crlf tail f r rows]
    | cons g gs =>
      rw [show rowBody (f :: g :: gs) = quoteField f ++ ',' :: rowBody (g :: gs) from rfl]
      rw [show (quoteField f ++ ',' :: rowBody (g :: gs)) ++ '\r' :: '\n' :: tail =
          quoteField f ++ ',' :: (rowBody (g :: gs) ++ '\r' :: '\n' :: tail) by simp]
      rw [csvAux_field f _ r rows (by simp)]
      rw [csvAux_comma _ f r rows]
      rw [ih (by simp) tail (r ++ [f]) rows]
      simp

theorem csvAux_file (rowList : List (List (List Char)))
    (hne : ∀ row ∈ rowList, row ≠ []) :
    ∀ rows, csvAux ((rowList.map writeRow).flatten) false [] [] rows = rows ++ rowList := by
  induction rowList with
  | nil => intro rows; simp [csvAux]
  | cons row rest ih =>
    intro rows
    rw [show ((row :: rest).map writeRow).flatten =
        rowBody row ++ '\r' :: '\n' :: (rest.map writeRow).flatten by
      simp [writeRow]]
    rw [csvAux_row row (hne row (by simp)) ((rest.map writeRow).flatten) [] rows]
    rw [ih (fun r hr => hne r (by simp [hr])) (rows ++ [[] ++ row])]
    simp

/-- Round trip at the row level: `csv.reader` recovers exactly the rows that
`csv.writer` wrote, for any nonempty rows with arbitrary field contents. -/
theorem parseRows_writeRows (rowList : List (List (List Char)))
    (hne : ∀ row ∈ rowList, row ≠ []) :
    parseRows ((rowList.map writeRow).flatten) = rowList := by
  unfold parseRows
  simpa using csvAux_file rowList hne []

theorem digitChar_val {k : ℕ} (hk : k ≤ 9) : (digitChar k).toNat = 48 + k := by
  interval_cases k <;> decide

theorem digitChar_isDigit {k : ℕ} (hk : k ≤ 9) : (digitChar k).isDigit = true := by
  interval_cases k <;> decide

/-- Decimal digits of a natural number, most significant first, with
structural fuel. -/
def natCharsAux : ℕ → ℕ → List Char
  | 0, _ => []
  | _ + 1, 0 => []
  | fuel + 1, m + 1 => natCharsAux fuel ((m + 1) / 10) ++ [digitChar ((m + 1) % 10)]

/-- The decimal numeral of a natural number, as Python's `str` prints it. -/
def natChars (m : ℕ) : List Char :=
  if m = 0 then ['0'] else natCharsAux (m + 1) m

/-- Value of a string of decimal digits. -/
def digitsToNat (cs : List Char) : ℕ :=
  cs.foldl (fun acc c => 10 * acc + (c.toNat - 48)) 0

theorem natCharsAux_digits (fuel : ℕ) : ∀ m, ∀ c ∈ natCharsAux fuel m,
    c.isDigit = true := by
  induction fuel with
  | zero => intro m c hc; simp [natCharsAux] at hc
  | succ fuel ih =>
    intro m c hc
    cases m with
    | zero => simp [natCharsAux] at hc
    | succ m =>
      rw [show natCharsAux (fuel + 1) (m + 1) =
          natCharsAux fuel ((m + 1) / 10) ++ [digitChar ((m + 1) % 10)] from rfl] at hc
      rcases List.mem_append.mp hc with h | h
      · exact ih ((m + 1) / 10) c h
      · rw [List.mem_singleton.mp h]
        exact digitChar_isDigit (by omega)

theorem natChars_digits (m : ℕ) : ∀ c ∈ natChars m, c.isDigit = true := by
  intro c hc
  unfold natChars at hc
  by_cases h0 : m = 0
  · rw [if_pos h0] at hc
    rw [List.mem_singleton.mp hc]
    decide
  · rw [if_neg h0] at hc
    exact natCharsAux_digits (m + 1) m c hc

theorem natChars_ne_nil (m : ℕ) : natChars m ≠ [] := by
  unfold natChars
  by_cases h0 : m = 0
  · rw [if_pos h0]; simp
  · rw [if_neg h0]
    cases m with
    | zero => exact absurd rfl h0
    | succ m =>
      rw [show natCharsAux (m + 1 + 1) (m + 1) =
          natCharsAux (m + 1) ((m + 1) / 10) ++ [digitChar ((m + 1) % 10)] from rfl]
      simp

theorem natCharsAux_val (fuel : ℕ) : ∀ m, m ≤ fuel → ∀ a : ℕ,
    (natCharsAux fuel m).foldl (fun acc c => 10 * acc + (c.toNat - 48)) a =
      a * 10 ^ (natCharsAux fuel m).length + m := by
  induction fuel with
  | zero =>
    intro m hm a
    interval_cases m
    simp [natCharsAux]
  | succ fuel ih =>
    intro m hm a
    cases m with
    | zero => simp [natCharsAux]
    | succ m =>
      rw [show natCharsAux (fuel + 1) (m + 1) =
          natCharsAux fuel ((m + 1) / 10) ++ [digitChar ((m + 1) % 10)] from rfl]
      rw [List.foldl_append]
      have hdiv : (m + 1) / 10 ≤ fuel := by
        have := Nat.div_lt_self (show 0 < m + 1 by omega) (show 1 < 10 by omega)
        omega
      rw [ih ((m + 1) / 10) hdiv a]
      simp only [List.foldl_cons, List.foldl_nil, List.length_append,
        List.length_singleton]
      rw [digitChar_val (show (m + 1) % 10 ≤ 9 by omega)]
      have hmod := Nat.div_add_mod (m + 1) 10
      have hsub : 48 + (m + 1) % 10 - 48 = (m + 1) % 10 := by omega
      rw [hsub, pow_succ]
      set L := 10 ^ (natCharsAux fuel ((m + 1) / 10)).length with hL
      ring_nf
      omega

theorem natChars_val (m : ℕ) : digitsToNat (natChars m) = m := by
  unfold natChars digitsToNat
  by_cases h0 : m = 0
  · rw [if_pos h0, h0]
    decide
  · rw [if_neg h0]
    rw [natCharsAux_val (m + 1) m (by omega) 0]
    simp

/-- `str(score)` for the non-negative one-decimal floats the program stores:
the integer part, a dot, and one fractional digit (for example
`str(88.1) = "88.1"`, `str(95.0) = "95.0"`). -/
def fmtScore (q : ℚ) : List Char :=
  let n : ℕ := (10 * q).num.toNat
  natChars (n / 10) ++ '.' :: [digitChar (n % 10)]

/-- Model of Python `float(text)` on unsigned decimal numerals: digits, with
an optional dot and fractional digits.  Scientific notation, `inf`/`nan` and
surrounding whitespace — which never occur in the program's own output — are
not modelled: those texts are mapped to `none`. -/
def parseUnsignedDecimal (cs : List Char) : Option ℚ :=
  match cs.dropWhile (fun c => c.isDigit) with
  | [] =>
    if cs.takeWhile (fun c => c.isDigit) = [] then none
    else some ((digitsToNat cs : ℕ) : ℚ)
  | '.' :: frac =>
    if frac.all (fun c => c.isDigit) ∧
        (cs.takeWhile (fun c => c.isDigit) ≠ [] ∨ frac ≠ []) then
      some ((digitsToNat (cs.takeWhile (fun c => c.isDigit)) : ℚ) +
        (digitsToNat frac : ℚ) / 10 ^ frac.length)
    else none
  | _ => none

/-- Model of Python `float(text)`: an optional leading minus sign before an
unsigned decimal numeral; `none` models the `ValueError` raised on
unparseable text. -/
def parseDecimal (cs : List Char) : Option ℚ :=
  match cs with
  | '-' :: rest => (parseUnsignedDecimal rest).map (fun q => -q)
  | _ => parseUnsignedDecimal cs

theorem parseDecimal_eq_unsigned (cs : List Char) (h : cs.head? ≠ some '-') :
    parseDecimal cs = parseUnsignedDecimal cs := by
  conv_lhs => unfold parseDecimal
  split <;> simp_all

theorem takeWhile_dropWhile_append (p : Char → Bool) (A : List Char)
    (hA : ∀ c ∈ A, p c = true) (b : Char) (hb : p b = false) (B : List Char) :
    (A ++ b :: B).takeWhile p = A ∧ (A ++ b :: B).dropWhile p = b :: B := by
  induction A with
  | nil => simp [List.takeWhile_cons, List.dropWhile_cons, hb]
  | cons a A ih =>
    have ha := hA a (by simp)
    obtain ⟨h1, h2⟩ := ih (fun c hc => hA c (by simp [hc]))
    simp [List.takeWhile_cons, List.dropWhile_cons, ha, h1, h2]

theorem parseUnsigned_digits_dot (A : List Char) (hA : ∀ c ∈ A, c.isDigit = true)
    (hAne : A ≠ []) (d : Char) (hd : d.isDigit = true) :
    parseUnsignedDecimal (A ++ '.' :: [d]) =
      some ((digitsToNat A : ℚ) + (digitsToNat [d] : ℚ) / 10) := by
  obtain ⟨htake, hdrop⟩ :=
    takeWhile_dropWhile_append (fun c => c.isDigit) A hA '.' (by decide) [d]
  unfold parseUnsignedDecimal
  rw [hdrop, htake]
  split
  case h_1 => simp_all
  case h_3 => simp_all
  case h_2 x frac heq =>
    have hfrac : frac = [d] := by
      cases heq
      rfl
    subst hfrac
    rw [if_pos ⟨by simp [hd], Or.inl hAne⟩]
    norm_num

theorem parseDecimal_fmtScore (n : ℕ) :
    parseDecimal (fmtScore ((n : ℚ) / 10)) = some ((n : ℚ) / 10) := by
  have h10 : (10 : ℚ) * ((n : ℚ) / 10) = (n : ℚ) := by
    field_simp
  have hnum : ((10 : ℚ) * ((n : ℚ) / 10)).num.toNat = n := by
    rw [h10]
    simp
  simp only [fmtScore]
  rw [hnum]
  have hA := natChars_digits (n / 10)
  have hAne := natChars_ne_nil (n / 10)
  have hhead : (natChars (n / 10) ++ '.' :: [digitChar (n % 10)]).head? ≠ some '-' := by
    obtain ⟨c, cs', hc⟩ := List.exists_cons_of_ne_nil hAne
    rw [hc]
    intro hcon
    have hcm : c = '-' := by simpa using hcon
    have hcd : c.isDigit = true := hA c (by rw [hc]; simp)
    rw [hcm] at hcd
    exact absurd hcd (by decide)
  rw [parseDecimal_eq_unsigned _ hhead]
  rw [parseUnsigned_digits_dot _ hA hAne _ (digitChar_isDigit (by omega))]
  rw [natChars_val]
  have hdig : digitsToNat [digitChar (n % 10)] = n % 10 := by
    unfold digitsToNat
    simp only [List.foldl_cons, List.foldl_nil]
    rw [digitChar_val (show n % 10 ≤ 9 by omega)]
    omega
  rw [hdig]
  congr 1
  have hdm : ((n / 10 : ℕ) : ℚ) * 10 + ((n % 10 : ℕ) : ℚ) = (n : ℚ) := by
    exact_mod_cast (show (n / 10) * 10 + n % 10 = n by omega)
  field_simp
  linarith [hdm]

/-- `save_leaderboard(board)` (app.py lines 49-54): one csv row per entry,
fields in order `[name, str(score), timestamp]`, full-file rewrite. -/
def save_leaderboard (board : List Entry) : List Char :=
  (board.map (fun e => writeRow [e.name, fmtScore e.score, e.timestamp])).flatten

/-- The row loop of `load_leaderboard` (app.py lines 44-46):
`name, score, timestamp = row` (a `ValueError` unless exactly three fields)
then `float(score)` (a `ValueError` on unparseable text); an exception aborts
the whole load, so the result is all-or-nothing. -/
def loadRows : List (List (List Char)) → Option (List Entry)
  | [] => some []
  | row :: rows =>
    match row with
    | [n, s, t] =>
      match parseDecimal s, loadRows rows with
      | some q, some es => some (⟨n, q, t⟩ :: es)
      | _, _ => none
    | _ => none

/-- `load_leaderboard()` (app.py lines 37-47) applied to the file text. -/
def load_leaderboard (text : List Char) : Option (List Entry) :=
  loadRows (parseRows text)

/-- A score the program can have persisted: a non-negative one-decimal
value. -/
def storedScore (q : ℚ) : Prop :=
  ∃ n : ℕ, q = (n : ℚ) / 10

theorem loadRows_map (board : List Entry)
    (h : ∀ e ∈ board, storedScore e.score) :
    loadRows (board.map (fun e => [e.name, fmtScore e.score, e.timestamp])) =
      some board := by
  induction board with
  | nil => rfl
  | cons e es ih =>
    obtain ⟨n, hn⟩ := h e (by simp)
    rw [List.map_cons]
    rw [show loadRows ([e.name, fmtScore e.score, e.timestamp] ::
        es.map (fun e => [e.name, fmtScore e.score, e.timestamp])) =
      match parseDecimal (fmtScore e.score),
          loadRows (es.map (fun e => [e.name, fmtScore e.score, e.timestamp])) with
        | some q, some es' => some (⟨e.name, q, e.timestamp⟩ :: es')
        | _, _ => none from rfl]
    rw [hn, parseDecimal_fmtScore n, ih (fun x hx => h x (by simp [hx]))]
    rw [← hn]

/-- Persist-then-load round trip: loading the text written by
`save_leaderboard` recovers the board exactly, for arbitrary names and
timestamps (commas, quotes and line breaks included — the csv module quotes
them). -/
theorem save_load_roundtrip (board : List Entry)
    (h : ∀ e ∈ board, storedScore e.score) :
    load_leaderboard (save_leaderboard board) = some board := by
  unfold load_leaderboard save_leaderboard
  have hmm : board.map (fun e => writeRow [e.name, fmtScore e.score, e.timestamp]) =
      (board.map (fun e => [e.name, fmtScore e.score, e.timestamp])).map writeRow := by
    rw [List.map_map]
    rfl
  rw [hmm, parseRows_writeRows _ (by
    intro row hrow
    obtain ⟨e, _, hrw⟩ := List.mem_map.mp hrow
    rw [← hrw]
    simp)]
  exact loadRows_map board h

/-- Counterexample to claim C4 at a concrete input: the entry named
`"Doe,John"` — a name containing the field delimiter — survives a
persist-then-load round trip unchanged, because `csv.writer` quotes the
name; the claim asserts the opposite. -/
theorem claim_C4_counterexample :
    load_leaderboard (save_leaderboard
        [⟨String.data "Doe,John", 95, String.data "2024-01-01 00:00:00"⟩]) =
      some [⟨String.data "Doe,John", 95, String.data "2024-01-01 00:00:00"⟩] :=
  save_load_roundtrip _ (by
    intro e he
    rw [List.mem_singleton.mp he]
    exact ⟨950, by norm_num⟩)

/-- Claim C4 as amended: for every entry whose name contains the field
delimiter (and whose score is a stored one-decimal value), persisting the
leaderboard and loading it back recovers the original entry — the csv layer
quotes the name, so it does not corrupt parsing. -/
theorem claim_C4_amended (e : Entry) (hcomma : ',' ∈ e.name)
    (hscore : storedScore e.score) :
    load_leaderboard (save_leaderboard [e]) = some [e] :=
  save_load_roundtrip [e] (by
    intro x hx
    rw [List.mem_singleton.mp hx]
    exact hscore)

/-- Witness for the amended C4 at a concrete comma-containing name. -/
theorem claim_C4_witness :
    (',' ∈ (⟨String.data "a,b", 88.1, String.data "t"⟩ : Entry).name ∧
        storedScore (⟨String.data "a,b", 88.1, String.data "t"⟩ : Entry).score) ∧
      load_leaderboard (save_leaderboard [⟨String.data "a,b", 88.1, String.data "t"⟩]) =
        some [⟨String.data "a,b", 88.1, String.data "t"⟩] :=
  ⟨⟨by decide, ⟨881, by norm_num⟩⟩,
    claim_C4_amended ⟨String.data "a,b", 88.1, String.data "t"⟩ (by decide)
      ⟨881, by norm_num⟩⟩

/-- Claim C10: a persisted row with exactly three fields whose score field is
not parseable as a decimal numeral makes the whole load fail — the row is not
skipped and no partial board is returned (and, by the type of `loadRows`,
every successfully loaded entry carries a numeric score). -/
theorem claim_C10 (rows : List (List (List Char))) (n s t : List Char)
    (hmem : [n, s, t] ∈ rows) (hbad : parseDecimal s = none) :
    loadRows rows = none := by
  induction rows with
  | nil => simp at hmem
  | cons row rest ih =>
    rcases List.mem_cons.mp hmem with hrow | hrest
    · rw [← hrow]
      rw [show loadRows ([n, s, t] :: rest) =
        match parseDecimal s, loadRows rest with
          | some q, some es => some (⟨n, q, t⟩ :: es)
          | _, _ => none from rfl]
      rw [hbad]
    · have hrec := ih hrest
      rcases row with _ | ⟨a, _ | ⟨b, _ | ⟨c, _ | ⟨d, tl⟩⟩⟩⟩
      · rfl
      · rfl
      · rfl
      · rw [show loadRows ([a, b, c] :: rest) =
          match parseDecimal b, loadRows rest with
            | some q, some es => some (⟨a, q, c⟩ :: es)
            | _, _ => none from rfl]
        rw [hrec]
        cases parseDecimal b <;> rfl
      · rfl

/-- Witness for C10: a single row whose score field is `"abc"`. -/
theorem claim_C10_witness :
    [String.data "x", String.data "abc", String.data "t"] ∈
        [[String.data "x", String.data "abc", String.data "t"]] ∧
      parseDecimal (String.data "abc") = none ∧
      loadRows [[String.data "x", String.data "abc", String.data "t"]] = none :=
  ⟨by simp, rfl,
    claim_C10 [[String.data "x", String.data "abc", String.data "t"]]
      (String.data "x") (String.data "abc") (String.data "t") (by simp) rfl⟩

/-! ## The Submit handler -/

/-- Python's `str.strip()`: drop whitespace from both ends. -/
def strip (cs : List Char) : List Char :=
  ((cs.dropWhile (fun c => c.isWhitespace)).reverse.dropWhile
    (fun c => c.isWhitespace)).reverse

/-- The session state visible to the Submit handler: the in-memory
leaderboard (`st.session_state.leaderboard`) and the persisted file text. -/
structure AppState where
  board : List Entry
  file : List Char

/-- Outcome of one Submit interaction.  The two `err` outcomes are the
`st.error` + `st.stop` validation paths (app.py lines 85-91); `crashDivByZero`
is the uncaught `ZeroDivisionError` from
`observed = [c/total for c in counts]` (app.py line 102) when `total = 0`. -/
inductive SubmitResult where
  | errEmptyName
  | errTooFewNumbers
  | crashDivByZero
  | ok (score : ℚ)

/-- The Submit handler (app.py lines 83-141): validate the name, extract the
digit runs, validate their count, build the histogram; with `total = 0` line
102 divides by zero and the interaction aborts with no state change;
otherwise score, append to the board, re-sort descending and rewrite the
persisted file. -/
noncomputable def submit (username data_input now : List Char) (s : AppState) :
    AppState × SubmitResult :=
  if strip username = [] then (s, .errEmptyName)
  else
    let numbers := digitRuns data_input
    if numbers.length < 5 then (s, .errTooFewNumbers)
    else
      let counts := buildCounts numbers
      let total := counts.sum
      if total = 0 then (s, .crashDivByZero)
      else
        let score := chi_square_score counts BENFORD total
        let board := sortDesc (s.board ++ [⟨username, score, now⟩])
        (⟨board, save_leaderboard board⟩, .ok score)

/-- Claim C1 (code bug): a submission with a valid name and five digit runs
that all begin with "0" — e.g. `"010 020 030 040 050"` — reaches line 102
with `total = 0` and raises an uncaught `ZeroDivisionError`; it neither
yields score 0 nor reports a validation error, and the session state and
file are left unchanged by the abort. -/
theorem claim_C1_crash (now : List Char) (s : AppState) :
    submit (String.data "a") (String.data "010 020 030 040 050") now s =
      (s, SubmitResult.crashDivByZero) := rfl

/-- Claim C7: when the name is empty (or whitespace-only) or fewer than five
digit runs are extracted, the submission halts with the corresponding
validation error and no state is mutated: the leaderboard and the persisted
file are exactly as before. -/
theorem claim_C7 (username data_input now : List Char) (s : AppState)
    (h : strip username = [] ∨ (digitRuns data_input).length < 5) :
    (submit username data_input now s).1 = s ∧
      ((submit username data_input now s).2 = SubmitResult.errEmptyName ∨
        (submit username data_input now s).2 = SubmitResult.errTooFewNumbers) := by
  by_cases h0 : strip username = []
  · simp only [submit, if_pos h0]
    exact ⟨trivial, Or.inl trivial⟩
  · rcases h with h | h
    · exact absurd h h0
    · simp only [submit, if_neg h0, if_pos h]
      exact ⟨trivial, Or.inr trivial⟩

/-- Witness for C7: the spec's own scenario, dataset `"12 34"` (two runs). -/
theorem claim_C7_witness :
    (strip (String.data "bob") = [] ∨ (digitRuns (String.data "12 34")).length < 5) ∧
      ((submit (String.data "bob") (String.data "12 34") (String.data "t")
          ⟨[], []⟩).1 = ⟨[], []⟩ ∧
        ((submit (String.data "bob") (String.data "12 34") (String.data "t")
            ⟨[], []⟩).2 = SubmitResult.errEmptyName ∨
          (submit (String.data "bob") (String.data "12 34") (String.data "t")
            ⟨[], []⟩).2 = SubmitResult.errTooFewNumbers)) :=
  ⟨Or.inr (by decide),
    claim_C7 (String.data "bob") (String.data "12 34") (String.data "t")
      ⟨[], []⟩ (Or.inr (by decide))⟩

/-- Witness for C9: a board with two entries both named `"ann"`. -/
theorem claim_C9_witness :
    (∃ e ∈ [(⟨String.data "bob", 90, String.data "t1"⟩ : Entry),
        ⟨String.data "ann", 80, String.data "t2"⟩,
        ⟨String.data "ann", 70, String.data "t3"⟩], e.name = String.data "ann") ∧
      (∃ i, i < ([(⟨String.data "bob", 90, String.data "t1"⟩ : Entry),
          ⟨String.data "ann", 80, String.data "t2"⟩,
          ⟨String.data "ann", 70, String.data "t3"⟩] : List Entry).length ∧
        (∀ e, ([(⟨String.data "bob", 90, String.data "t1"⟩ : Entry),
            ⟨String.data "ann", 80, String.data "t2"⟩,
            ⟨String.data "ann", 70, String.data "t3"⟩] : List Entry)[i]? = some e →
          e.name = String.data "ann" ∧
            updateBoard [⟨String.data "bob", 90, String.data "t1"⟩,
                ⟨String.data "ann", 80, String.data "t2"⟩,
                ⟨String.data "ann", 70, String.data "t3"⟩]
                (String.data "ann") (String.data "amy") =
              ([(⟨String.data "bob", 90, String.data "t1"⟩ : Entry),
                ⟨String.data "ann", 80, String.data "t2"⟩,
                ⟨String.data "ann", 70, String.data "t3"⟩] : List Entry).set i
                ⟨String.data "amy", e.score, e.timestamp⟩) ∧
        (∀ j, j < i → ∀ e, ([(⟨String.data "bob", 90, String.data "t1"⟩ : Entry),
            ⟨String.data "ann", 80, String.data "t2"⟩,
            ⟨String.data "ann", 70, String.data "t3"⟩] : List Entry)[j]? = some e →
          e.name ≠ String.data "ann") ∧
        (∀ j, j ≠ i →
          (updateBoard [⟨String.data "bob", 90, String.data "t1"⟩,
              ⟨String.data "ann", 80, String.data "t2"⟩,
              ⟨String.data "ann", 70, String.data "t3"⟩]
              (String.data "ann") (String.data "amy"))[j]? =
            ([(⟨String.data "bob", 90, String.data "t1"⟩ : Entry),
              ⟨String.data "ann", 80, String.data "t2"⟩,
              ⟨String.data "ann", 70, String.data "t3"⟩] : List Entry)[j]?) ∧
        deleteBoard [⟨String.data "bob", 90, String.data "t1"⟩,
            ⟨String.data "ann", 80, String.data "t2"⟩,
            ⟨String.data "ann", 70, String.data "t3"⟩] (String.data "ann") =
          ([(⟨String.data "bob", 90, String.data "t1"⟩ : Entry),
            ⟨String.data "ann", 80, String.data "t2"⟩,
            ⟨String.data "ann", 70, String.data "t3"⟩] : List Entry).eraseIdx i) :=
  ⟨⟨⟨String.data "ann", 80, String.data "t2"⟩, by simp, rfl⟩,
    claim_C9 [⟨String.data "bob", 90, String.data "t1"⟩,
        ⟨String.data "ann", 80, String.data "t2"⟩,
        ⟨String.data "ann", 70, String.data "t3"⟩]
      (String.data "ann") (String.data "amy")
      ⟨⟨String.data "ann", 80, String.data "t2"⟩, by simp, rfl⟩⟩

end BenfordApp
